import Mathlib

/-!
Shallow embedding of the AI_Doc_Engine repository's text-normalisation and
financial-validation logic (src/utils.py and src/validators.py), together
with theorems settling the specification's claims about it.

Strings are modelled as `List Char`.  Python's `\s` character class is
modelled by its ASCII members (space, tab, newline, carriage return,
vertical tab, form feed); the inputs the claims exercise are ASCII.
Python `re.sub` is modelled faithfully as a single left-to-right pass over
non-overlapping leftmost matches.  Python floats are modelled by exact
rationals (`ℚ`); the constants involved (`0.01`, `1.5`) and the integer
inputs exercised here are exact in both arithmetics.
-/

/-- Python's `\s` for ASCII text: the whitespace characters `str.strip`,
`\s+` and friends act on. -/
def isPyWs (c : Char) : Bool :=
  c = ' ' || c = '\t' || c = '\n' || c = '\r' || c = '\x0b' || c = '\x0c'

/-- Python's `\d` for ASCII text. -/
def isDigitC (c : Char) : Bool :=
  '0' ≤ c && c ≤ '9'

/-- Match a literal pattern at the head of `l`; on success return the rest. -/
def dropLit : List Char → List Char → Option (List Char)
  | [], l => some l
  | _ :: _, [] => none
  | p :: ps, c :: cs => if c = p then dropLit ps cs else none

/-- One pass of `re.sub(r'\s+', ' ', text)`, driven by a fuel that the
wrapper sets to the input length: each step consumes at least one input
character, so the fuel never runs out. -/
def collapseWsF : Nat → List Char → List Char
  | 0, l => l
  | _ + 1, [] => []
  | fuel + 1, c :: rest =>
    if isPyWs c then ' ' :: collapseWsF fuel (rest.dropWhile isPyWs)
    else c :: collapseWsF fuel rest

/-- `re.sub(r'\s+', ' ', text)`: collapse each maximal whitespace run to a
single space. -/
def collapseWs (l : List Char) : List Char :=
  collapseWsF l.length l

/-- A `--- Page \d+ ---` marker at the head of `l`: on success return what
follows the marker.  The regex's greedy `\d+` must be followed by a space,
so it always takes the maximal digit run. -/
def matchPageMarker (l : List Char) : Option (List Char) :=
  match dropLit ("--- Page ".toList) l with
  | none => none
  | some r1 =>
    let ds := r1.takeWhile isDigitC
    if ds.isEmpty then none
    else dropLit (" ---".toList) (r1.drop ds.length)

/-- `re.sub(r'--- Page \d+ ---', '', text)`: single pass, leftmost
non-overlapping matches removed.  Fuel as in `collapseWsF`. -/
def removePageMarkersF : Nat → List Char → List Char
  | 0, l => l
  | _ + 1, [] => []
  | fuel + 1, c :: rest =>
    match matchPageMarker (c :: rest) with
    | some r => removePageMarkersF fuel r
    | none => c :: removePageMarkersF fuel rest

def removePageMarkers (l : List Char) : List Char :=
  removePageMarkersF l.length l

/-- A `--- Table \d+ \(Page \d+\) ---` marker at the head of `l`. -/
def matchTableMarker (l : List Char) : Option (List Char) :=
  match dropLit ("--- Table ".toList) l with
  | none => none
  | some r1 =>
    let ds := r1.takeWhile isDigitC
    if ds.isEmpty then none
    else
      match dropLit (" (Page ".toList) (r1.drop ds.length) with
      | none => none
      | some r2 =>
        let ds2 := r2.takeWhile isDigitC
        if ds2.isEmpty then none
        else dropLit (") ---".toList) (r2.drop ds2.length)

/-- `re.sub(r'--- Table \d+ \(Page \d+\) ---', '\nTABLE:\n', text)`.
Fuel as in `collapseWsF`. -/
def replaceTableMarkersF : Nat → List Char → List Char
  | 0, l => l
  | _ + 1, [] => []
  | fuel + 1, c :: rest =>
    match matchTableMarker (c :: rest) with
    | some r =>
      '\n' :: 'T' :: 'A' :: 'B' :: 'L' :: 'E' :: ':' :: '\n' :: replaceTableMarkersF fuel r
    | none => c :: replaceTableMarkersF fuel rest

def replaceTableMarkers (l : List Char) : List Char :=
  replaceTableMarkersF l.length l

/-- `re.sub(r'\$\s*', '$', text)`: each dollar sign absorbs the whitespace
that follows it.  Fuel as in `collapseWsF`. -/
def fixDollarF : Nat → List Char → List Char
  | 0, l => l
  | _ + 1, [] => []
  | fuel + 1, c :: rest =>
    if c = '$' then '$' :: fixDollarF fuel (rest.dropWhile isPyWs)
    else c :: fixDollarF fuel rest

def fixDollar (l : List Char) : List Char :=
  fixDollarF l.length l

/-- `re.sub(r'(\d),(\d)', r'\1\2', text)`: ONE left-to-right pass; after a
match the scan resumes past the matched three characters, so overlapping
digit-comma-digit occurrences are not all rewritten. -/
def removeDigitCommas : List Char → List Char
  | a :: b :: c :: rest =>
    if isDigitC a && b = ',' && isDigitC c then
      a :: c :: removeDigitCommas rest
    else
      a :: removeDigitCommas (b :: c :: rest)
  | l => l

/-- The prefix of `l` up to and including its last newline (empty when `l`
has no newline). -/
def upToLastNl (l : List Char) : List Char :=
  (l.reverse.dropWhile (fun c => !(c = '\n'))).reverse

/-- A match of `\n\s*\n\s*\n+` at the head of `l`: it exists exactly when
the whitespace run starting at a leading newline holds at least three
newlines, and (by the greedy/backtracking semantics) extends through the
run's last newline.  Returns the rest after the match. -/
def matchTripleNl (l : List Char) : Option (List Char) :=
  if l.head? = some '\n' ∧ 3 ≤ (l.takeWhile isPyWs).count '\n' then
    some (l.drop (upToLastNl (l.takeWhile isPyWs)).length)
  else none

/-- `re.sub(r'\n\s*\n\s*\n+', '\n\n', text)`.  Fuel as in `collapseWsF`. -/
def fixLineBreaksF : Nat → List Char → List Char
  | 0, l => l
  | _ + 1, [] => []
  | fuel + 1, c :: rest =>
    match matchTripleNl (c :: rest) with
    | some r => '\n' :: '\n' :: fixLineBreaksF fuel r
    | none => c :: fixLineBreaksF fuel rest

def fixLineBreaks (l : List Char) : List Char :=
  fixLineBreaksF l.length l

/-- Python `str.strip()`: drop trailing whitespace. -/
def rstripWs (l : List Char) : List Char :=
  (l.reverse.dropWhile isPyWs).reverse

/-- Python `str.strip()`: drop leading and trailing whitespace. -/
def stripWs (l : List Char) : List Char :=
  (rstripWs l).dropWhile isPyWs

/-- `utils.clean_text`: whitespace collapse, page-marker removal,
table-marker replacement, dollar-space removal, digit-grouping comma
removal, excess blank-line collapse, final strip — in the source's order. -/
def clean_text (l : List Char) : List Char :=
  stripWs (fixLineBreaks (removeDigitCommas (fixDollar
    (replaceTableMarkers (removePageMarkers (collapseWs l))))))


/-! ### Normal-form predicates for the cleaning pipeline -/

/-- No `(\d),(\d)` match anywhere in the text. -/
def noDigitCommaDigit : List Char → Bool
  | a :: b :: c :: rest =>
    !(isDigitC a && b = ',' && isDigitC c) && noDigitCommaDigit (b :: c :: rest)
  | _ => true

/-- No two overlapping `(\d),(\d)` matches (no digit, comma, digit, comma,
digit run) anywhere in the text. -/
def noDigitCommaChain : List Char → Bool
  | a :: b :: c :: d :: e :: rest =>
    !(isDigitC a && b = ',' && isDigitC c && d = ',' && isDigitC e) &&
      noDigitCommaChain (b :: c :: d :: e :: rest)
  | _ => true

/-- The leading sliding window of `noDigitCommaDigit` is safe: the first
three characters are not digit, comma, digit. -/
def dcdWindowOk (y : Char) (t : List Char) : Bool :=
  match t with
  | z :: w :: _ => !(isDigitC y && z = ',' && isDigitC w)
  | _ => true

/-- No two adjacent spaces. -/
def noDoubleSpace : List Char → Bool
  | a :: b :: rest => !(a = ' ' && b = ' ') && noDoubleSpace (b :: rest)
  | _ => true

/-- No dollar sign directly followed by whitespace. -/
def noDollarWs : List Char → Bool
  | a :: b :: rest => !(a = '$' && isPyWs b) && noDollarWs (b :: rest)
  | _ => true

/-- Some suffix starts with a `--- Page \d+ ---` marker. -/
def containsPageMarker : List Char → Bool
  | [] => false
  | c :: rest => (matchPageMarker (c :: rest)).isSome || containsPageMarker rest

/-- Some suffix starts with a `--- Table \d+ \(Page \d+\) ---` marker. -/
def containsTableMarker : List Char → Bool
  | [] => false
  | c :: rest => (matchTableMarker (c :: rest)).isSome || containsTableMarker rest

/-- The first character, if any, is not whitespace. -/
def noLeadingWs : List Char → Bool
  | [] => true
  | c :: _ => !isPyWs c

/-- Cleaned normal form: text every pass of `clean_text` leaves unchanged
(only single spaces as whitespace, no markers, no digit-grouping commas,
no dollar-space, not padded). -/
def isCleanNormal (l : List Char) : Bool :=
  l.all (fun c => !isPyWs c || c = ' ')
    && noDoubleSpace l
    && noLeadingWs l
    && noLeadingWs l.reverse
    && !containsPageMarker l
    && !containsTableMarker l
    && noDigitCommaDigit l
    && noDollarWs l

/-! ### Chunking (utils.chunk_text_for_llm) -/

/-- Python `str.split(sep)` for a non-empty separator: split on leftmost
non-overlapping occurrences, keeping empty parts.  Fuel as in
`collapseWsF`. -/
def splitOnSubF (sep : List Char) : Nat → List Char → List (List Char)
  | 0, l => [l]
  | _ + 1, [] => [[]]
  | fuel + 1, c :: rest =>
    match dropLit sep (c :: rest) with
    | some r => [] :: splitOnSubF sep fuel r
    | none =>
      match splitOnSubF sep fuel rest with
      | [] => [[c]]
      | p :: ps => (c :: p) :: ps

def splitOnSub (sep l : List Char) : List (List Char) :=
  splitOnSubF sep l.length l

/-- The flush both accumulation loops of `chunk_text_for_llm` perform: when
the next piece would overflow a non-empty accumulator, the stripped
accumulator is emitted as a chunk and the accumulator restarts empty. -/
def flushStep (maxSize : Nat) (st : List (List Char) × List Char)
    (piece : List Char) : List (List Char) × List Char :=
  if maxSize < st.2.length + piece.length ∧ st.2 ≠ [] then
    (st.1 ++ [stripWs st.2], [])
  else st

/-- The greedy sentence-level accumulation step of `chunk_text_for_llm`:
flush on overflow, then append the sentence plus a re-attached `". "`
terminator. -/
def sentStep (maxSize : Nat) (st : List (List Char) × List Char) (s : List Char) :
    List (List Char) × List Char :=
  ((flushStep maxSize st s).1, (flushStep maxSize st s).2 ++ s ++ ['.', ' '])

/-- The paragraph-level accumulation step of `chunk_text_for_llm`: flush on
overflow; an oversized paragraph is re-split on `". "` sentence boundaries,
a fitting one is appended with a `"\n\n"` separator. -/
def paraStep (maxSize : Nat) (st : List (List Char) × List Char) (p : List Char) :
    List (List Char) × List Char :=
  if maxSize < p.length then
    (splitOnSub ['.', ' '] p).foldl (sentStep maxSize) (flushStep maxSize st p)
  else
    ((flushStep maxSize st p).1, (flushStep maxSize st p).2 ++ p ++ ['\n', '\n'])

/-- `utils.chunk_text_for_llm`: texts that fit give one chunk; otherwise
greedy paragraph packing with sentence fallback, final accumulator emitted
when its stripped form is non-empty. -/
def chunk_text_for_llm (text : List Char) (maxSize : Nat) : List (List Char) :=
  if text.length ≤ maxSize then [text]
  else
    let st := (splitOnSub ['\n', '\n'] text).foldl (paraStep maxSize) ([], [])
    if stripWs st.2 ≠ [] then st.1 ++ [stripWs st.2] else st.1

/-- Every `". "`-delimited sentence of every `"\n\n"`-delimited paragraph of
`text` has length at most `maxSize`. -/
def allSentencesLe (text : List Char) (maxSize : Nat) : Bool :=
  (splitOnSub ['\n', '\n'] text).all fun p =>
    (splitOnSub ['.', ' '] p).all fun s => decide (s.length ≤ maxSize)

/-! ### Coercion (validators.clean_financial_data) -/

/-- A loosely-typed JSON value as the extraction layer submits it. -/
inductive RawValue
  | vNull
  | vStr (s : List Char)
  | vInt (n : Int)
  | vRat (q : ℚ)
  deriving DecidableEq

/-- An output value of `validators.clean_financial_data`. -/
inductive CleanedValue
  | cNull
  | cStr (s : List Char)
  | cInt (n : Int)
  | cRat (q : ℚ)
  deriving DecidableEq

/-- The nine core monetary field names `clean_financial_data` coerces. -/
def monetaryFields : List String :=
  ["revenue", "cogs", "gross_profit", "operating_expenses",
   "operating_income", "net_income", "total_assets", "total_liabilities", "equity"]

/-- The value of an ASCII digit string. -/
def digitsToNat (ds : List Char) : Nat :=
  ds.foldl (fun a c => a * 10 + (c.toNat - '0'.toNat)) 0

/-- Multiplication on `ℚ` written so the kernel can evaluate it
(`Rat.mul` is `@[irreducible]`); it is proved equal to `(· * ·)` below. -/
def qMul (a b : ℚ) : ℚ :=
  mkRat (a.num * b.num) (a.den * b.den)

/-- The source's `0.01` float literal, exact as a rational. -/
def q001 : ℚ := mkRat 1 100

/-- The source's `1.5` float literal, exact as a rational. -/
def q15 : ℚ := mkRat 3 2

/-- `10 ^ e` over `ℚ` for an integer exponent, written so the kernel can
evaluate it. -/
def qPow10 (e : Int) : ℚ :=
  if 0 ≤ e then mkRat (((10 : Nat) ^ e.toNat : Nat) : Int) 1
  else mkRat 1 ((10 : Nat) ^ (-e).toNat)

/-- Python `float(s)` on a finite decimal literal (optional surrounding
whitespace, optional sign, digits with optional fraction and optional
exponent), computed exactly over `ℚ`; every other string fails.  (`inf` /
`nan` literals and digit-separating underscores are outside the model; the
cleaned monetary strings exercised here never contain them, and the
decimal values exercised here are exact in binary floating point.) -/
def pyParseFloat (s : List Char) : Option ℚ :=
  let t0 := stripWs s
  let sgnT : Int × List Char :=
    match t0 with
    | '-' :: r => (-1, r)
    | '+' :: r => (1, r)
    | r => (1, r)
  let ip := sgnT.2.takeWhile isDigitC
  let t1 := sgnT.2.drop ip.length
  let fpT : List Char × List Char :=
    match t1 with
    | '.' :: r => (r.takeWhile isDigitC, r.drop (r.takeWhile isDigitC).length)
    | r => ([], r)
  if ip.isEmpty && fpT.1.isEmpty then none
  else
    let mant : Int := sgnT.1 * (digitsToNat (ip ++ fpT.1) : Int)
    match fpT.2 with
    | [] => some (qMul (mant : ℚ) (qPow10 (0 - (fpT.1.length : Int))))
    | e :: r =>
      if e = 'e' || e = 'E' then
        let esgnR : Int × List Char :=
          match r with
          | '-' :: r2 => (-1, r2)
          | '+' :: r2 => (1, r2)
          | r2 => (1, r2)
        let eds := esgnR.2.takeWhile isDigitC
        if eds.isEmpty || !(esgnR.2.drop eds.length).isEmpty then none
        else
          some (qMul (mant : ℚ)
            (qPow10 (esgnR.1 * (digitsToNat eds : Int) - (fpT.1.length : Int))))
      else none

/-- Python `int()` applied to a real value: truncation toward zero. -/
def truncQ (q : ℚ) : Int :=
  Int.sign q.num * ((q.num.natAbs / q.den : Nat) : Int)

/-- `re.sub(r'[\$,\(\)]', '', value)`. -/
def stripMoneyChars (s : List Char) : List Char :=
  s.filter fun c => !(c = '$' || c = ',' || c = '(' || c = ')')

/-- The monetary branch of `clean_financial_data`:
`-int(float(cleaned)) if '(' in value and ')' in value else
int(float(cleaned))`, any parse failure mapped to absent. -/
def coerceMonetary (s : List Char) : Option Int :=
  match pyParseFloat (stripMoneyChars s) with
  | none => none
  | some q =>
    if s.contains '(' && s.contains ')' then some (-truncQ q) else some (truncQ q)

/-- `value is None or value == "null" or value == ""`. -/
def isNullish (v : RawValue) : Bool :=
  match v with
  | .vNull => true
  | .vStr s => s = "null".toList || s = []
  | _ => false

/-- Per-entry transformation of `clean_financial_data`. -/
def cleanValue (key : String) (v : RawValue) : CleanedValue :=
  if isNullish v then .cNull
  else
    match v with
    | .vStr s =>
      if key ∈ monetaryFields then
        match coerceMonetary s with
        | some n => .cInt n
        | none => .cNull
      else .cStr (stripWs s)
    | .vInt n => .cInt n
    | .vRat q => .cRat q
    | .vNull => .cNull

/-- `validators.clean_financial_data`: every key passes through unchanged,
values are cleaned entrywise. -/
def clean_financial_data (m : List (String × RawValue)) : List (String × CleanedValue) :=
  m.map fun kv => (kv.1, cleanValue kv.1 kv.2)

/-! ### Record validation (validators.FinancialData) -/

/-- The validated record: `validators.FinancialData`'s fields.  Floats are
modelled by `ℚ`. -/
structure FinancialData where
  company_name : List Char
  year : List Char
  revenue : Option Int
  cogs : Option Int
  gross_profit : Option Int
  operating_expenses : Option Int
  operating_income : Option Int
  net_income : Option Int
  total_assets : Option Int
  total_liabilities : Option Int
  equity : Option Int
  gross_margin : Option ℚ
  operating_margin : Option ℚ
  net_margin : Option ℚ
  deriving DecidableEq

/-- A field-level validation failure (pydantic type/constraint errors, the
`extra="forbid"` unknown-key error, and the two custom field validators). -/
inductive FieldError
  | missingRequired (field : String)
  | wrongType (field : String)
  | extraForbidden (field : String)
  | stringTooShort (field : String)
  | stringTooLong (field : String)
  | emptyCompanyName (field : String)
  | patternMismatch (field : String)
  | yearOutOfRange (field : String)
  | negativeValue (field : String)
  | outOfRange (field : String)
  deriving DecidableEq

/-- A violation raised by `FinancialData.validate_financial_logic`; each
carries the values its message interpolates (actual first, then the
expected/compared value). -/
inductive LogicViolation
  | grossProfitMismatch (actual expected : Int)
  | operatingIncomeMismatch (actual expected : Int)
  | equityMismatch (actual expected : Int)
  | grossProfitExceedsRevenue (grossProfit revenue : Int)
  | operatingIncomeExceedsGrossProfit (operatingIncome grossProfit : Int)
  | netIncomeUnusuallyHigh (netIncome operatingIncome : Int)
  deriving DecidableEq

/-- First value stored under `name`, as a Python dict lookup. -/
def lookupRaw (m : List (String × RawValue)) (name : String) : Option RawValue :=
  match m with
  | [] => none
  | kv :: rest => if kv.1 = name then some kv.2 else lookupRaw rest name

/-- The declared field set of the base `FinancialData` model (the
`extra="forbid"` whitelist). -/
def baseFieldNames : List String :=
  ["company_name", "year", "revenue", "cogs", "gross_profit",
   "operating_expenses", "operating_income", "net_income", "total_assets",
   "total_liabilities", "equity", "gross_margin", "operating_margin", "net_margin"]

/-- `extra="forbid"`: one error per key outside the declared field set. -/
def extraKeyErrors (m : List (String × RawValue)) : List FieldError :=
  ((m.map Prod.fst).filter fun k => decide (k ∉ baseFieldNames)).map .extraForbidden

/-- `company_name`: required string, `min_length=1`, `max_length=255`, then
the `validate_company_name` validator (reject blank, strip, collapse
whitespace). -/
def parseCompanyName (m : List (String × RawValue)) : Except FieldError (List Char) :=
  match lookupRaw m "company_name" with
  | some (.vStr s) =>
    if s.length < 1 then .error (.stringTooShort "company_name")
    else if 255 < s.length then .error (.stringTooLong "company_name")
    else if stripWs s = [] then .error (.emptyCompanyName "company_name")
    else .ok (collapseWs (stripWs s))
  | some _ => .error (.wrongType "company_name")
  | none => .error (.missingRequired "company_name")

/-- `year`: required string matching `^\d{4}$`, then the `validate_year`
validator (`1900 ≤ int(v) ≤ current_year + 1`); the current year is an
explicit parameter in place of the source's wall clock. -/
def parseYear (currentYear : Int) (m : List (String × RawValue)) :
    Except FieldError (List Char) :=
  match lookupRaw m "year" with
  | some (.vStr s) =>
    if s.length = 4 ∧ s.all isDigitC then
      if (digitsToNat s : Int) < 1900 ∨ currentYear + 1 < (digitsToNat s : Int) then
        .error (.yearOutOfRange "year")
      else .ok s
    else .error (.patternMismatch "year")
  | some _ => .error (.wrongType "year")
  | none => .error (.missingRequired "year")

/-- An `Optional[int]` field; when `nonneg` is set (fields with `ge=0` and
the `validate_positive_values` validator), negative values are rejected. -/
def parseOptInt (nonneg : Bool) (m : List (String × RawValue)) (name : String) :
    Except FieldError (Option Int) :=
  match lookupRaw m name with
  | none => .ok none
  | some .vNull => .ok none
  | some (.vInt n) =>
    if nonneg ∧ n < 0 then .error (.negativeValue name) else .ok (some n)
  | some _ => .error (.wrongType name)

/-- An `Optional[float]` field with `ge=lo, le=hi` bounds (the margin
fields); integers coerce to floats as pydantic does. -/
def parseOptFloat (lo hi : ℚ) (m : List (String × RawValue)) (name : String) :
    Except FieldError (Option ℚ) :=
  match lookupRaw m name with
  | none => .ok none
  | some .vNull => .ok none
  | some (.vInt n) =>
    if (n : ℚ) < lo ∨ hi < (n : ℚ) then .error (.outOfRange name) else .ok (some (n : ℚ))
  | some (.vRat q) =>
    if q < lo ∨ hi < q then .error (.outOfRange name) else .ok (some q)
  | some _ => .error (.wrongType name)

/-- The singleton or empty error list a field contributes. -/
def collectErr {α : Type} : Except FieldError α → List FieldError
  | .error e => [e]
  | .ok _ => []

/-- All field-level errors of an input map: every field is checked
independently and every failure is collected (pydantic's aggregated
`ValidationError`). -/
def fieldErrors (currentYear : Int) (m : List (String × RawValue)) : List FieldError :=
  extraKeyErrors m
    ++ collectErr (parseCompanyName m)
    ++ collectErr (parseYear currentYear m)
    ++ collectErr (parseOptInt true m "revenue")
    ++ collectErr (parseOptInt true m "cogs")
    ++ collectErr (parseOptInt false m "gross_profit")
    ++ collectErr (parseOptInt true m "operating_expenses")
    ++ collectErr (parseOptInt false m "operating_income")
    ++ collectErr (parseOptInt false m "net_income")
    ++ collectErr (parseOptInt true m "total_assets")
    ++ collectErr (parseOptInt true m "total_liabilities")
    ++ collectErr (parseOptInt false m "equity")
    ++ collectErr (parseOptFloat 0 100 m "gross_margin")
    ++ collectErr (parseOptFloat (-100) 100 m "operating_margin")
    ++ collectErr (parseOptFloat (-100) 100 m "net_margin")

/-- The record the field parses produce (meaningful once `fieldErrors` is
empty; the defaults are never reached then). -/
def buildRecord (currentYear : Int) (m : List (String × RawValue)) : FinancialData :=
  ⟨(parseCompanyName m).toOption.getD [],
   (parseYear currentYear m).toOption.getD [],
   (parseOptInt true m "revenue").toOption.getD none,
   (parseOptInt true m "cogs").toOption.getD none,
   (parseOptInt false m "gross_profit").toOption.getD none,
   (parseOptInt true m "operating_expenses").toOption.getD none,
   (parseOptInt false m "operating_income").toOption.getD none,
   (parseOptInt false m "net_income").toOption.getD none,
   (parseOptInt true m "total_assets").toOption.getD none,
   (parseOptInt true m "total_liabilities").toOption.getD none,
   (parseOptInt false m "equity").toOption.getD none,
   (parseOptFloat 0 100 m "gross_margin").toOption.getD none,
   (parseOptFloat (-100) 100 m "operating_margin").toOption.getD none,
   (parseOptFloat (-100) 100 m "net_margin").toOption.getD none⟩

/-- `max(1000, abs(expected) * 0.01)`: the absolute-or-relative tolerance
band of the accounting-identity checks (`expected` is a Python int, the
product a float). -/
def toleranceFor (expected : Int) : ℚ :=
  max 1000 (qMul ((|expected| : Int) : ℚ) q001)

/-- Gross-profit identity: `gross_profit ≈ revenue - cogs`. -/
def checkGrossProfit (d : FinancialData) : List LogicViolation :=
  match d.revenue, d.cogs, d.gross_profit with
  | some rev, some cogs, some gp =>
    if toleranceFor (rev - cogs) < ((|gp - (rev - cogs)| : Int) : ℚ) then
      [.grossProfitMismatch gp (rev - cogs)]
    else []
  | _, _, _ => []

/-- Operating-income identity:
`operating_income ≈ gross_profit - operating_expenses`. -/
def checkOperatingIncome (d : FinancialData) : List LogicViolation :=
  match d.gross_profit, d.operating_expenses, d.operating_income with
  | some gp, some opex, some oi =>
    if toleranceFor (gp - opex) < ((|oi - (gp - opex)| : Int) : ℚ) then
      [.operatingIncomeMismatch oi (gp - opex)]
    else []
  | _, _, _ => []

/-- Balance-sheet identity: `equity ≈ total_assets - total_liabilities`. -/
def checkEquity (d : FinancialData) : List LogicViolation :=
  match d.total_assets, d.total_liabilities, d.equity with
  | some ta, some tl, some eq =>
    if toleranceFor (ta - tl) < ((|eq - (ta - tl)| : Int) : ℚ) then
      [.equityMismatch eq (ta - tl)]
    else []
  | _, _, _ => []

/-- Ordering: gross profit must not exceed revenue. -/
def checkGpVsRevenue (d : FinancialData) : List LogicViolation :=
  match d.revenue, d.gross_profit with
  | some rev, some gp =>
    if rev < gp then [.grossProfitExceedsRevenue gp rev] else []
  | _, _ => []

/-- Ordering: operating income must not exceed gross profit. -/
def checkOiVsGp (d : FinancialData) : List LogicViolation :=
  match d.gross_profit, d.operating_income with
  | some gp, some oi =>
    if gp < oi then [.operatingIncomeExceedsGrossProfit oi gp] else []
  | _, _ => []

/-- Plausibility: with positive operating income, net income must not
exceed `operating_income * 1.5`. -/
def checkNetVsOi (d : FinancialData) : List LogicViolation :=
  match d.operating_income, d.net_income with
  | some oi, some ni =>
    if qMul (oi : ℚ) q15 < (ni : ℚ) ∧ 0 < oi then [.netIncomeUnusuallyHigh ni oi] else []
  | _, _ => []

/-- `FinancialData.validate_financial_logic`: all six checks run, their
violations accumulated in the source's order. -/
def validate_financial_logic (d : FinancialData) : List LogicViolation :=
  checkGrossProfit d ++ checkOperatingIncome d ++ checkEquity d
    ++ checkGpVsRevenue d ++ checkOiVsGp d ++ checkNetVsOi d

/-- The outcome of validating one raw map against the base model. -/
inductive ValidationOutcome
  | valid (d : FinancialData)
  | fieldRejected (errs : List FieldError)
  | logicRejected (errs : List LogicViolation)
  deriving DecidableEq

/-- Full record validation: pydantic collects every field-level error
first; only when there is none does the `mode='after'` model validator
(`validate_financial_logic`) run, and all its violations reject together. -/
def validateRecord (currentYear : Int) (m : List (String × RawValue)) :
    ValidationOutcome :=
  if fieldErrors currentYear m = [] then
    match validate_financial_logic (buildRecord currentYear m) with
    | [] => .valid (buildRecord currentYear m)
    | v :: vs => .logicRejected (v :: vs)
  else .fieldRejected (fieldErrors currentYear m)

/-! ### Completeness summary and batch validation -/

/-- How many of the nine core monetary fields are present
(`get_validation_summary`'s `completed_fields`). -/
def completedFields (d : FinancialData) : Nat :=
  ([d.revenue, d.cogs, d.gross_profit, d.operating_expenses, d.operating_income,
    d.net_income, d.total_assets, d.total_liabilities, d.equity].filter
      Option.isSome).length

/-- `get_validation_summary`'s `total_fields = 12` constant. -/
def totalFields : Nat := 12

/-- `get_validation_summary`'s `completeness_score`:
`completed_fields / total_fields`, exact rational division. -/
def completeness_score (d : FinancialData) : ℚ :=
  mkRat (completedFields d) totalFields

/-- The deduplication key of `validate_unique_company_years`:
`(record.company_name.lower(), record.year)`.  `str.lower` is modelled on
ASCII letters. -/
def recordKey (d : FinancialData) : List Char × List Char :=
  (d.company_name.map Char.toLower, d.year)

/-- The scan of `validate_unique_company_years`: walk the records, tracking
seen keys; `true` means a duplicate was found (the source raises). -/
def hasDupAux (seen : List (List Char × List Char)) :
    List FinancialData → Bool
  | [] => false
  | r :: rest =>
    decide (recordKey r ∈ seen) || hasDupAux (recordKey r :: seen) rest

/-- `FinancialDataBatch.validate_unique_company_years`: `true` exactly when
the batch is rejected for a duplicated (lower-cased company name, year)
pair. -/
def validate_unique_company_years (recs : List FinancialData) : Bool :=
  hasDupAux [] recs

/-! ### Concrete inputs and records used by the claims -/

/-- The spec's full example input. -/
def exampleInput : List (String × RawValue) :=
  [("company_name", .vStr ("ACME Corp".toList)), ("year", .vStr ("2023".toList)),
   ("revenue", .vInt 1000000), ("cogs", .vInt 600000), ("gross_profit", .vInt 400000),
   ("operating_expenses", .vInt 200000), ("operating_income", .vInt 200000),
   ("net_income", .vInt 150000)]

/-- The validated record the full example produces. -/
def exampleRecord : FinancialData :=
  ⟨"ACME Corp".toList, "2023".toList, some 1000000, some 600000, some 400000,
   some 200000, some 200000, some 150000, none, none, none, none, none, none⟩

/-- The spec's rejection example: the full example with
`gross_profit: 100000`. -/
def rejectionInput : List (String × RawValue) :=
  [("company_name", .vStr ("ACME Corp".toList)), ("year", .vStr ("2023".toList)),
   ("revenue", .vInt 1000000), ("cogs", .vInt 600000), ("gross_profit", .vInt 100000),
   ("operating_expenses", .vInt 200000), ("operating_income", .vInt 200000),
   ("net_income", .vInt 150000)]

/-- The rejection example with `year: "1800"` on top: one field-level
violation and (were they evaluated) several financial-logic violations. -/
def badYearInput : List (String × RawValue) :=
  [("company_name", .vStr ("ACME Corp".toList)), ("year", .vStr ("1800".toList)),
   ("revenue", .vInt 1000000), ("cogs", .vInt 600000), ("gross_profit", .vInt 100000),
   ("operating_expenses", .vInt 200000), ("operating_income", .vInt 200000),
   ("net_income", .vInt 150000)]

/-- The record `badYearInput`'s values denote, used to evaluate the
financial-logic checks the field failure suppresses. -/
def badYearRecord : FinancialData :=
  ⟨"ACME Corp".toList, "1800".toList, some 1000000, some 600000, some 100000,
   some 200000, some 200000, some 150000, none, none, none, none, none, none⟩

/-- An input with two independent field-level violations (year out of
range, negative revenue). -/
def twoErrorInput : List (String × RawValue) :=
  [("company_name", .vStr ("ACME Corp".toList)), ("year", .vStr ("1800".toList)),
   ("revenue", .vInt (-5))]

/-- `revenue = 1_000_000`, `cogs = 600_000` and a gross profit to test the
tolerance band with. -/
def gpBandRecord (gp : Int) : FinancialData :=
  ⟨"ACME Corp".toList, "2023".toList, some 1000000, some 600000, some gp,
   none, none, none, none, none, none, none, none, none⟩

/-- An input carrying a negative `gross_margin`. -/
def negMarginInput : List (String × RawValue) :=
  [("company_name", .vStr ("ACME Corp".toList)), ("year", .vStr ("2023".toList)),
   ("gross_margin", .vInt (-5))]

/-- An input carrying a negative `gross_profit` and nothing else optional. -/
def negGpInput : List (String × RawValue) :=
  [("company_name", .vStr ("ACME Corp".toList)), ("year", .vStr ("2023".toList)),
   ("gross_profit", .vInt (-100))]

/-- The validated record `negGpInput` produces. -/
def negGpRecord : FinancialData :=
  ⟨"ACME Corp".toList, "2023".toList, none, none, some (-100),
   none, none, none, none, none, none, none, none, none⟩

/-- A valid record plus one key outside the declared field set. -/
def unknownKeyInput : List (String × RawValue) :=
  [("company_name", .vStr ("ACME Corp".toList)), ("year", .vStr ("2023".toList)),
   ("ebitda", .vInt 5)]

/-- Two batch records whose company names differ only in letter case and
whose years coincide. -/
def acmeMixedCase : FinancialData :=
  ⟨"Acme Corp".toList, "2023".toList, none, none, none,
   none, none, none, none, none, none, none, none, none⟩

def acmeUpperCase : FinancialData :=
  ⟨"ACME CORP".toList, "2023".toList, none, none, none,
   none, none, none, none, none, none, none, none, none⟩

/-! ### Helper lemmas: passes of `clean_text` fix cleaned-normal text -/

theorem noDoubleSpace_tail {c : Char} {l : List Char}
    (h : noDoubleSpace (c :: l) = true) : noDoubleSpace l = true := by
  cases l with
  | nil => rfl
  | cons b rest =>
    simp only [noDoubleSpace, Bool.and_eq_true] at h
    exact h.2

theorem noDollarWs_tail {c : Char} {l : List Char}
    (h : noDollarWs (c :: l) = true) : noDollarWs l = true := by
  cases l with
  | nil => rfl
  | cons b rest =>
    simp only [noDollarWs, Bool.and_eq_true] at h
    exact h.2

theorem dropWhile_eq_self_of_noLeadingWs {l : List Char}
    (h : noLeadingWs l = true) : l.dropWhile isPyWs = l := by
  cases l with
  | nil => rfl
  | cons c rest =>
    simp only [noLeadingWs] at h
    have hc : isPyWs c = false := by simpa using h
    simp [List.dropWhile_cons, hc]

theorem collapseWsF_id (fuel : Nat) (l : List Char)
    (hall : l.all (fun c => !isPyWs c || c = ' ') = true)
    (hds : noDoubleSpace l = true) : collapseWsF fuel l = l := by
  induction fuel generalizing l with
  | zero => rfl
  | succ fuel ih =>
    cases l with
    | nil => rfl
    | cons c rest =>
      simp only [List.all_cons, Bool.and_eq_true] at hall
      by_cases hc : isPyWs c = true
      · have hcsp : c = ' ' := by
          have := hall.1
          simp [hc] at this
          exact this
        have hrest : rest.dropWhile isPyWs = rest := by
          cases rest with
          | nil => rfl
          | cons d rs =>
            have hd : ¬ isPyWs d = true := by
              intro hdw
              have hdsp : d = ' ' := by
                have := (List.all_eq_true.mp hall.2) d (by simp)
                simp [hdw] at this
                exact this
              rw [hcsp, hdsp] at hds
              simp [noDoubleSpace] at hds
            simp [List.dropWhile_cons, hd]
        simp only [collapseWsF, if_pos hc, hrest, hcsp]
        exact congrArg _ (ih rest hall.2 (noDoubleSpace_tail hds))
      · simp only [collapseWsF, if_neg hc]
        exact congrArg _ (ih rest hall.2 (noDoubleSpace_tail hds))

theorem fixDollarF_id (fuel : Nat) (l : List Char)
    (hdw : noDollarWs l = true) : fixDollarF fuel l = l := by
  induction fuel generalizing l with
  | zero => rfl
  | succ fuel ih =>
    cases l with
    | nil => rfl
    | cons c rest =>
      by_cases hc : c = '$'
      · have hrest : rest.dropWhile isPyWs = rest := by
          cases rest with
          | nil => rfl
          | cons d rs =>
            have hd : ¬ isPyWs d = true := by
              intro hdws
              rw [hc] at hdw
              simp [noDollarWs, hdws] at hdw
            simp [List.dropWhile_cons, hd]
        simp only [fixDollarF, if_pos hc, hrest, hc]
        exact congrArg _ (ih rest (noDollarWs_tail hdw))
      · simp only [fixDollarF, if_neg hc]
        exact congrArg _ (ih rest (noDollarWs_tail hdw))

theorem removePageMarkersF_id (fuel : Nat) (l : List Char)
    (h : containsPageMarker l = false) : removePageMarkersF fuel l = l := by
  induction fuel generalizing l with
  | zero => rfl
  | succ fuel ih =>
    cases l with
    | nil => rfl
    | cons c rest =>
      simp only [containsPageMarker, Bool.or_eq_false_iff] at h
      have hm : matchPageMarker (c :: rest) = none := by
        cases hm : matchPageMarker (c :: rest) with
        | none => rfl
        | some r => rw [hm] at h; simp at h
      simp only [removePageMarkersF, hm]
      exact congrArg _ (ih rest h.2)

theorem replaceTableMarkersF_id (fuel : Nat) (l : List Char)
    (h : containsTableMarker l = false) : replaceTableMarkersF fuel l = l := by
  induction fuel generalizing l with
  | zero => rfl
  | succ fuel ih =>
    cases l with
    | nil => rfl
    | cons c rest =>
      simp only [containsTableMarker, Bool.or_eq_false_iff] at h
      have hm : matchTableMarker (c :: rest) = none := by
        cases hm : matchTableMarker (c :: rest) with
        | none => rfl
        | some r => rw [hm] at h; simp at h
      simp only [replaceTableMarkersF, hm]
      exact congrArg _ (ih rest h.2)

theorem removeDigitCommas_id (l : List Char) :
    noDigitCommaDigit l = true → removeDigitCommas l = l := by
  induction l with
  | nil => intro _; rfl
  | cons a t ih =>
    intro h
    cases t with
    | nil => rfl
    | cons b t2 =>
      cases t2 with
      | nil => rfl
      | cons c rest =>
        simp only [noDigitCommaDigit] at h
        rw [Bool.and_eq_true, Bool.not_eq_true'] at h
        simp only [removeDigitCommas]
        rw [if_neg (by simp [h.1])]
        exact congrArg _ (ih h.2)

theorem fixLineBreaksF_id (fuel : Nat) (l : List Char)
    (hall : l.all (fun c => !isPyWs c || c = ' ') = true) :
    fixLineBreaksF fuel l = l := by
  induction fuel generalizing l with
  | zero => rfl
  | succ fuel ih =>
    cases l with
    | nil => rfl
    | cons c rest =>
      simp only [List.all_cons, Bool.and_eq_true] at hall
      have hcnl : ¬ c = '\n' := by
        intro hc
        subst hc
        simp [isPyWs] at hall
      have hm : matchTripleNl (c :: rest) = none := by
        unfold matchTripleNl
        rw [if_neg]
        intro hcontra
        exact hcnl (by simpa using hcontra.1)
      simp only [fixLineBreaksF, hm]
      exact congrArg _ (ih rest hall.2)

theorem stripWs_id (l : List Char)
    (h1 : noLeadingWs l = true) (h2 : noLeadingWs l.reverse = true) :
    stripWs l = l := by
  unfold stripWs rstripWs
  rw [dropWhile_eq_self_of_noLeadingWs h2, List.reverse_reverse,
    dropWhile_eq_self_of_noLeadingWs h1]

/-- Every pass of `clean_text` leaves cleaned-normal text unchanged. -/
theorem clean_text_fixed (l : List Char) (h : isCleanNormal l = true) :
    clean_text l = l := by
  unfold isCleanNormal at h
  simp only [Bool.and_eq_true, Bool.not_eq_true'] at h
  obtain ⟨⟨⟨⟨⟨⟨⟨hall, hds⟩, hlead⟩, htrail⟩, hpage⟩, htable⟩, hdcd⟩, hdw⟩ := h
  unfold clean_text collapseWs removePageMarkers replaceTableMarkers fixDollar fixLineBreaks
  rw [collapseWsF_id _ _ hall hds, removePageMarkersF_id _ _ hpage,
    replaceTableMarkersF_id _ _ htable, fixDollarF_id _ _ hdw,
    removeDigitCommas_id _ hdcd, fixLineBreaksF_id _ _ hall,
    stripWs_id _ hlead htrail]

/-! ### Claim C3: idempotence of `clean_text` -/

/-- Claim C3 (corrected): `clean_text` is not idempotent in general (see the
counterexample on `"1,2,3"`); it is idempotent on every text whose cleaned
form is in cleaned normal form. -/
theorem C3_clean_idempotent_on_normal (x : List Char)
    (h : isCleanNormal (clean_text x) = true) :
    clean_text (clean_text x) = clean_text x :=
  clean_text_fixed _ h

/-- Witness for C3 at a concrete document snippet. -/
theorem C3_clean_idempotent_on_normal_witness :
    isCleanNormal (clean_text ("Revenue was $ 1,250 in 2023.".toList)) = true ∧
    clean_text (clean_text ("Revenue was $ 1,250 in 2023.".toList)) =
      clean_text ("Revenue was $ 1,250 in 2023.".toList) :=
  ⟨by decide, C3_clean_idempotent_on_normal _ (by decide)⟩

/-- C3 counterexample: cleaning `"1,2,3"` once gives `"12,3"`, cleaning it
twice gives `"123"`. -/
theorem C3_clean_not_idempotent :
    clean_text (clean_text ("1,2,3".toList)) ≠ clean_text ("1,2,3".toList) := by
  decide

/-! ### Claim C7: the digit-comma-digit pass -/

theorem noDigitCommaDigit_cons (y : Char) (t : List Char) :
    noDigitCommaDigit (y :: t) = (dcdWindowOk y t && noDigitCommaDigit t) := by
  cases t with
  | nil => rfl
  | cons z t2 =>
    cases t2 with
    | nil => rfl
    | cons w r => rfl

theorem removeDigitCommas_head (l : List Char) :
    (removeDigitCommas l).head? = l.head? := by
  cases l with
  | nil => rfl
  | cons a t =>
    cases t with
    | nil => rfl
    | cons b t2 =>
      cases t2 with
      | nil => rfl
      | cons c rest =>
        simp only [removeDigitCommas]
        split <;> rfl

theorem removeDigitCommas_cons_nonmatch (a : Char) (t : List Char)
    (h : dcdWindowOk a t = true) :
    removeDigitCommas (a :: t) = a :: removeDigitCommas t := by
  cases t with
  | nil => rfl
  | cons b t2 =>
    cases t2 with
    | nil => rfl
    | cons c rest =>
      simp only [dcdWindowOk, Bool.not_eq_true'] at h
      simp only [removeDigitCommas]
      rw [if_neg (by simp [h])]

theorem noChain_tail {x : Char} {t : List Char}
    (h : noDigitCommaChain (x :: t) = true) : noDigitCommaChain t = true := by
  cases t with
  | nil => rfl
  | cons a t1 =>
    cases t1 with
    | nil => rfl
    | cons b t2 =>
      cases t2 with
      | nil => rfl
      | cons c t3 =>
        cases t3 with
        | nil => rfl
        | cons d t4 =>
          simp only [noDigitCommaChain, Bool.and_eq_true] at h
          exact h.2

theorem comma_not_digit : isDigitC ',' = false := by decide

theorem removeDigitCommas_no_dcd_aux (n : Nat) :
    ∀ l : List Char, l.length ≤ n → noDigitCommaChain l = true →
      noDigitCommaDigit (removeDigitCommas l) = true := by
  induction n with
  | zero =>
    intro l hl _
    have hlnil : l = [] := List.length_eq_zero.mp (Nat.le_zero.mp hl)
    subst hlnil; rfl
  | succ n ih =>
    intro l hl hch
    cases l with
    | nil => rfl
    | cons a t =>
      cases t with
      | nil => rfl
      | cons b t2 =>
        cases t2 with
        | nil => rfl
        | cons c rest =>
          by_cases hm : (isDigitC a && b = ',' && isDigitC c) = true
          · -- the leading three characters are rewritten to two
            have hm2 := hm
            simp only [Bool.and_eq_true, decide_eq_true_eq] at hm2
            obtain ⟨⟨ha, hb⟩, hc⟩ := hm2
            simp only [removeDigitCommas, if_pos hm]
            have hrest_ch : noDigitCommaChain rest = true :=
              noChain_tail (noChain_tail (noChain_tail hch))
            have hlen : rest.length ≤ n := by
              simp only [List.length_cons] at hl; omega
            have hrec : noDigitCommaDigit (removeDigitCommas rest) = true :=
              ih rest hlen hrest_ch
            have hcnc : ¬ c = ',' := by
              intro hceq; rw [hceq] at hc
              exact absurd hc (by decide)
            have hwin1 : dcdWindowOk a (c :: removeDigitCommas rest) = true := by
              cases hr : removeDigitCommas rest with
              | nil => rfl
              | cons z zs => simp [dcdWindowOk, hcnc]
            have hwin2 : dcdWindowOk c (removeDigitCommas rest) = true := by
              cases rest with
              | nil => rfl
              | cons z rs =>
                by_cases hz : z = ','
                · subst hz
                  have hstep : removeDigitCommas (',' :: rs) =
                      ',' :: removeDigitCommas rs := by
                    apply removeDigitCommas_cons_nonmatch
                    cases rs with
                    | nil => rfl
                    | cons w ws =>
                      cases ws with
                      | nil => rfl
                      | cons v vs => simp [dcdWindowOk, comma_not_digit]
                  rw [hstep]
                  cases hrs : removeDigitCommas rs with
                  | nil => rfl
                  | cons w ws =>
                    have hw : rs.head? = some w := by
                      rw [← removeDigitCommas_head, hrs]; rfl
                    cases rs with
                    | nil => simp at hw
                    | cons w0 ws0 =>
                      have hww : w0 = w := by simpa using hw
                      subst hww
                      -- the five characters a, ',', c, ',', w0 form a chain
                      -- window of the input; hch forbids a digit there
                      subst hb
                      simp only [noDigitCommaChain] at hch
                      rw [Bool.and_eq_true, Bool.not_eq_true'] at hch
                      have h1 := hch.1
                      rw [ha, hc] at h1
                      have hnd : isDigitC w0 = false := by
                        by_cases hdw : isDigitC w0 = true
                        · rw [hdw] at h1; simp at h1
                        · simpa using hdw
                      simp [dcdWindowOk, hnd]
                · cases hr2 : removeDigitCommas (z :: rs) with
                  | nil => rfl
                  | cons z2 zs2 =>
                    have hzz : z2 = z := by
                      have hh := removeDigitCommas_head (z :: rs)
                      rw [hr2] at hh
                      simpa using hh
                    subst hzz
                    cases zs2 with
                    | nil => rfl
                    | cons u us => simp [dcdWindowOk, hz]
            rw [noDigitCommaDigit_cons, noDigitCommaDigit_cons, hwin1, hwin2, hrec]
            rfl
          · -- no rewrite at the head; the scan moves one character
            have hsafe : dcdWindowOk a (b :: c :: rest) = true := by
              simp only [dcdWindowOk, Bool.not_eq_true']
              simpa using hm
            rw [removeDigitCommas_cons_nonmatch a (b :: c :: rest) hsafe,
              noDigitCommaDigit_cons]
            have hlen : (b :: c :: rest).length ≤ n := by
              simp only [List.length_cons] at hl ⊢; omega
            have hrec : noDigitCommaDigit (removeDigitCommas (b :: c :: rest)) = true :=
              ih _ hlen (noChain_tail hch)
            have hwin : dcdWindowOk a (removeDigitCommas (b :: c :: rest)) = true := by
              cases rest with
              | nil =>
                have hv : removeDigitCommas [b, c] = [b, c] := rfl
                rw [hv]
                simp only [dcdWindowOk, Bool.not_eq_true']
                simpa using hm
              | cons r0 rs =>
                by_cases hm2 : (isDigitC b && c = ',' && isDigitC r0) = true
                · -- the match one position later fires; the first two output
                  -- characters are b and r0, and b is a digit, not a comma
                  have hbd : isDigitC b = true := by
                    simp only [Bool.and_eq_true] at hm2; exact hm2.1.1
                  have hbnc : ¬ b = ',' := by
                    intro hbe; rw [hbe] at hbd
                    exact absurd hbd (by decide)
                  simp only [removeDigitCommas, if_pos hm2]
                  simp [dcdWindowOk, hbnc]
                · have hsafe2 : dcdWindowOk b (c :: r0 :: rs) = true := by
                    simp only [dcdWindowOk, Bool.not_eq_true']
                    simpa using hm2
                  rw [removeDigitCommas_cons_nonmatch b (c :: r0 :: rs) hsafe2]
                  cases hx : removeDigitCommas (c :: r0 :: rs) with
                  | nil => rfl
                  | cons c2 cs =>
                    have hcc : c2 = c := by
                      have hh := removeDigitCommas_head (c :: r0 :: rs)
                      rw [hx] at hh
                      simpa using hh
                    subst hcc
                    simp only [dcdWindowOk, Bool.not_eq_true']
                    simpa using hm
            rw [hwin, hrec]
            rfl

/-- Claim C7 (corrected): the digit-comma-digit rule is applied in one
left-to-right pass over non-overlapping matches, so the output is free of
digit-comma-digit occurrences whenever no two matches overlap (no
digit, comma, digit, comma, digit run in the input of the pass). -/
theorem C7_single_pass_removes_digit_commas (l : List Char)
    (h : noDigitCommaChain l = true) :
    noDigitCommaDigit (removeDigitCommas l) = true :=
  removeDigitCommas_no_dcd_aux l.length l (Nat.le_refl _) h

/-- Witness for C7 on a standard thousands-separated number. -/
theorem C7_single_pass_witness :
    noDigitCommaChain ("1,234,567".toList) = true ∧
    noDigitCommaDigit (removeDigitCommas ("1,234,567".toList)) = true :=
  ⟨by decide, C7_single_pass_removes_digit_commas _ (by decide)⟩

/-- C7 counterexample: the rule is not applied repeatedly until no match
remains — overlapping matches leave a digit-comma-digit occurrence in the
cleaned output. -/
theorem C7_cleaned_output_keeps_digit_comma :
    noDigitCommaDigit (clean_text ("1,2,3".toList)) = false := by decide

/-! ### Claim C4: chunk length bound -/

theorem rstripWs_append_ws (l : List Char) (c : Char) (h : isPyWs c = true) :
    rstripWs (l ++ [c]) = rstripWs l := by
  unfold rstripWs
  rw [List.reverse_append]
  simp [List.dropWhile_cons, h]

theorem stripWs_append_ws (l : List Char) (c : Char) (h : isPyWs c = true) :
    stripWs (l ++ [c]) = stripWs l := by
  unfold stripWs
  rw [rstripWs_append_ws l c h]

theorem dropWhile_len_le (p : Char → Bool) (l : List Char) :
    (l.dropWhile p).length ≤ l.length := by
  induction l with
  | nil => simp
  | cons a t ih =>
    rw [List.dropWhile_cons]
    split
    · simp only [List.length_cons]; omega
    · simp

theorem stripWs_length_le (l : List Char) : (stripWs l).length ≤ l.length := by
  unfold stripWs rstripWs
  have h1 := dropWhile_len_le isPyWs ((l.reverse.dropWhile isPyWs).reverse)
  have h2 := dropWhile_len_le isPyWs l.reverse
  simp only [List.length_reverse] at h1 h2 ⊢
  omega

theorem flushStep_cases (N : Nat) (st : List (List Char) × List Char)
    (x : List Char) :
    flushStep N st x = (st.1 ++ [stripWs st.2], []) ∨
      (flushStep N st x = st ∧ (st.2.length + x.length ≤ N ∨ st.2 = [])) := by
  unfold flushStep
  by_cases h : N < st.2.length + x.length ∧ st.2 ≠ []
  · exact Or.inl (if_pos h)
  · refine Or.inr ⟨if_neg h, ?_⟩
    by_cases hlen : st.2.length + x.length ≤ N
    · exact Or.inl hlen
    · push_neg at h
      exact Or.inr (h (Nat.lt_of_not_le hlen))

theorem flushStep_inv (N : Nat) (st : List (List Char) × List Char)
    (x : List Char)
    (h1 : ∀ c ∈ st.1, c.length ≤ N + 1)
    (h2 : (stripWs st.2).length ≤ N + 1) :
    (∀ c ∈ (flushStep N st x).1, c.length ≤ N + 1) ∧
      (stripWs (flushStep N st x).2).length ≤ N + 1 := by
  rcases flushStep_cases N st x with heq | ⟨heq, _⟩ <;> rw [heq]
  · refine ⟨?_, by simp [stripWs, rstripWs]⟩
    intro c hc
    simp only [List.mem_append, List.mem_singleton] at hc
    rcases hc with hc | hc
    · exact h1 c hc
    · subst hc; exact h2
  · exact ⟨h1, h2⟩

theorem sentStep_inv (N : Nat) (st : List (List Char) × List Char)
    (s : List Char) (hs : s.length ≤ N)
    (h1 : ∀ c ∈ st.1, c.length ≤ N + 1)
    (h2 : (stripWs st.2).length ≤ N + 1) :
    (∀ c ∈ (sentStep N st s).1, c.length ≤ N + 1) ∧
      (stripWs (sentStep N st s).2).length ≤ N + 1 := by
  unfold sentStep
  have hflush := flushStep_inv N st s h1 h2
  refine ⟨hflush.1, ?_⟩
  have hsplit : (flushStep N st s).2 ++ s ++ ['.', ' '] =
      ((flushStep N st s).2 ++ s ++ ['.']) ++ [' '] := by simp
  rw [hsplit, stripWs_append_ws _ _ (by decide)]
  rcases flushStep_cases N st s with heq | ⟨heq, hcond⟩
  · rw [heq]
    show (stripWs (([] : List Char) ++ s ++ ['.'])).length ≤ N + 1
    simp only [List.nil_append]
    have hlen := stripWs_length_le (s ++ ['.'])
    simp only [List.length_append, List.length_cons, List.length_nil] at hlen
    omega
  · rw [heq]
    rcases hcond with hle | hnil
    · have hlen := stripWs_length_le (st.2 ++ s ++ ['.'])
      simp only [List.length_append, List.length_cons, List.length_nil] at hlen
      omega
    · rw [hnil]
      simp only [List.nil_append]
      have hlen := stripWs_length_le (s ++ ['.'])
      simp only [List.length_append, List.length_cons, List.length_nil] at hlen
      omega

theorem foldl_sentStep_inv (N : Nat) (ss : List (List Char)) :
    ∀ st : List (List Char) × List Char, (∀ s ∈ ss, s.length ≤ N) →
      (∀ c ∈ st.1, c.length ≤ N + 1) → (stripWs st.2).length ≤ N + 1 →
      (∀ c ∈ (ss.foldl (sentStep N) st).1, c.length ≤ N + 1) ∧
        (stripWs (ss.foldl (sentStep N) st).2).length ≤ N + 1 := by
  induction ss with
  | nil => exact fun st _ h1 h2 => ⟨h1, h2⟩
  | cons s ss ih =>
    intro st hss h1 h2
    simp only [List.foldl_cons]
    have hstep := sentStep_inv N st s (hss s (by simp)) h1 h2
    exact ih _ (fun x hx => hss x (by simp [hx])) hstep.1 hstep.2

theorem paraStep_inv (N : Nat) (st : List (List Char) × List Char)
    (p : List Char)
    (hp : ∀ s ∈ splitOnSub ['.', ' '] p, s.length ≤ N)
    (h1 : ∀ c ∈ st.1, c.length ≤ N + 1)
    (h2 : (stripWs st.2).length ≤ N + 1) :
    (∀ c ∈ (paraStep N st p).1, c.length ≤ N + 1) ∧
      (stripWs (paraStep N st p).2).length ≤ N + 1 := by
  unfold paraStep
  have hflush := flushStep_inv N st p h1 h2
  by_cases hbig : N < p.length
  · rw [if_pos hbig]
    exact foldl_sentStep_inv N _ _ hp hflush.1 hflush.2
  · rw [if_neg hbig]
    refine ⟨hflush.1, ?_⟩
    have hsplit : (flushStep N st p).2 ++ p ++ ['\n', '\n'] =
        (((flushStep N st p).2 ++ p) ++ ['\n']) ++ ['\n'] := by simp
    rw [hsplit, stripWs_append_ws _ _ (by decide),
      stripWs_append_ws _ _ (by decide)]
    rcases flushStep_cases N st p with heq | ⟨heq, hcond⟩
    · rw [heq]
      show (stripWs (([] : List Char) ++ p)).length ≤ N + 1
      simp only [List.nil_append]
      have hlen := stripWs_length_le p
      omega
    · rw [heq]
      rcases hcond with hle | hnil
      · have hlen := stripWs_length_le (st.2 ++ p)
        simp only [List.length_append] at hlen
        omega
      · rw [hnil]
        simp only [List.nil_append]
        have hlen := stripWs_length_le p
        omega

theorem foldl_paraStep_inv (N : Nat) (ps : List (List Char)) :
    ∀ st : List (List Char) × List Char,
      (∀ p ∈ ps, ∀ s ∈ splitOnSub ['.', ' '] p, s.length ≤ N) →
      (∀ c ∈ st.1, c.length ≤ N + 1) → (stripWs st.2).length ≤ N + 1 →
      (∀ c ∈ (ps.foldl (paraStep N) st).1, c.length ≤ N + 1) ∧
        (stripWs (ps.foldl (paraStep N) st).2).length ≤ N + 1 := by
  induction ps with
  | nil => exact fun st _ h1 h2 => ⟨h1, h2⟩
  | cons p ps ih =>
    intro st hps h1 h2
    simp only [List.foldl_cons]
    have hstep := paraStep_inv N st p (hps p (by simp)) h1 h2
    exact ih _ (fun x hx => hps x (by simp [hx])) hstep.1 hstep.2

/-- Claim C4 (corrected): when every atomic sentence fits within `N`, every
chunk `chunk_text_for_llm` produces has length at most `N + 1` (the
re-attached sentence period can push a flushed chunk one character past
`N`); an atomic sentence longer than `N` can still form an arbitrarily
oversized chunk on its own. -/
theorem C4_chunk_length_le_succ (text : List Char) (N : Nat)
    (h : allSentencesLe text N = true) :
    ∀ c ∈ chunk_text_for_llm text N, c.length ≤ N + 1 := by
  unfold chunk_text_for_llm
  by_cases hfit : text.length ≤ N
  · rw [if_pos hfit]
    intro c hc
    simp only [List.mem_singleton] at hc
    subst hc
    omega
  · rw [if_neg hfit]
    have hps : ∀ p ∈ splitOnSub ['\n', '\n'] text,
        ∀ s ∈ splitOnSub ['.', ' '] p, s.length ≤ N := by
      intro p hp s hs
      have hall := List.all_eq_true.mp h p hp
      have := List.all_eq_true.mp hall s hs
      simpa using this
    have hinv := foldl_paraStep_inv N (splitOnSub ['\n', '\n'] text) ([], [])
      hps (by simp) (by simp [stripWs, rstripWs])
    intro c hc
    simp only at hc
    split at hc
    · simp only [List.mem_append, List.mem_singleton] at hc
      rcases hc with hc | hc
      · exact hinv.1 c hc
      · subst hc; exact hinv.2
    · exact hinv.1 c hc

/-- Witness for C4 at a concrete text and size. -/
theorem C4_chunk_length_witness :
    allSentencesLe ("Revenue rose. Costs fell. Margin widened this year.".toList) 25
        = true ∧
    ∀ c ∈ chunk_text_for_llm
        ("Revenue rose. Costs fell. Margin widened this year.".toList) 25,
      c.length ≤ 26 :=
  ⟨by decide, C4_chunk_length_le_succ _ 25 (by decide)⟩

/-- C4 counterexample: with `N = 10` and no atomic sentence longer than 10,
the first emitted chunk (`"aaa. bbbbb."`) still has length 11 > N, so the
claimed bound (`≤ N` except for an oversized atomic sentence) fails. -/
theorem C4_chunk_exceeds_maxSize :
    allSentencesLe ("aaa. bbbbb. x".toList) 10 = true ∧
    (chunk_text_for_llm ("aaa. bbbbb. x".toList) 10).any
      (fun c => decide (10 < c.length)) = true := by
  constructor
  · decide
  · decide

/-! ### Claim C5: monetary-string coercion -/

/-- Claim C5: monetary-string coercion strips `$ , ( )`, negates when the
original string holds both parentheses (accounting-negative notation),
parses as a float and truncates toward zero, and maps any unparsable value
to absent rather than an error. -/
theorem C5_monetary_coercion :
    (∀ (s : List Char) (q : ℚ), pyParseFloat (stripMoneyChars s) = some q →
        s.contains '(' = true → s.contains ')' = true →
        coerceMonetary s = some (-truncQ q)) ∧
    (∀ s : List Char, pyParseFloat (stripMoneyChars s) = none →
        coerceMonetary s = none) ∧
    coerceMonetary ("$1,000,000".toList) = some 1000000 ∧
    coerceMonetary ("(500,000)".toList) = some (-500000) ∧
    coerceMonetary ("abc".toList) = none ∧
    coerceMonetary ("123.9".toList) = some 123 ∧
    cleanValue "revenue" (.vStr ("$1,000,000".toList)) = .cInt 1000000 ∧
    cleanValue "revenue" (.vStr ("abc".toList)) = .cNull := by
  refine ⟨?_, ?_, by decide, by decide, by decide, by decide, by decide, by decide⟩
  · intro s q hq h1 h2
    unfold coerceMonetary
    rw [hq, h1, h2]
    simp
  · intro s hq
    unfold coerceMonetary
    rw [hq]

/-! ### Claim C6: the tolerance band of the gross-profit identity -/

/-- Claim C6: with revenue 1 000 000 and cogs 600 000 present, every gross
profit in [396 000, 404 000] passes the financial-logic checks (tolerance
max(1000, 1% of 400 000) = 4000) and gross profit 350 000 fails with a
gross-profit violation carrying the actual and expected values. -/
theorem C6_tolerance_band :
    (∀ gp : Int, 396000 ≤ gp → gp ≤ 404000 →
        validate_financial_logic (gpBandRecord gp) = []) ∧
    validate_financial_logic (gpBandRecord 350000) =
      [.grossProfitMismatch 350000 400000] := by
  refine ⟨?_, by decide⟩
  intro gp hlo hhi
  have h1 : checkGrossProfit (gpBandRecord gp) = [] := by
    have hval : toleranceFor (1000000 - 600000) = (4000 : ℚ) := by decide
    have habs : |gp - (1000000 - 600000)| ≤ (4000 : Int) := by
      rw [abs_le]; omega
    have hcast : ((|gp - (1000000 - 600000)| : Int) : ℚ) ≤ (4000 : ℚ) := by
      have hc : ((|gp - (1000000 - 600000)| : Int) : ℚ) ≤ ((4000 : Int) : ℚ) :=
        Int.cast_le.mpr habs
      simpa using hc
    simp only [checkGrossProfit, gpBandRecord]
    rw [if_neg (by rw [hval]; exact not_lt.mpr hcast)]
  have h4 : checkGpVsRevenue (gpBandRecord gp) = [] := by
    simp only [checkGpVsRevenue, gpBandRecord]
    rw [if_neg (by omega)]
  have h2 : checkOperatingIncome (gpBandRecord gp) = [] := rfl
  have h3 : checkEquity (gpBandRecord gp) = [] := rfl
  have h5 : checkOiVsGp (gpBandRecord gp) = [] := rfl
  have h6 : checkNetVsOi (gpBandRecord gp) = [] := rfl
  unfold validate_financial_logic
  rw [h1, h2, h3, h4, h5, h6]
  rfl

/-! ### Claim C1: the completeness score -/

/-- Claim C1 (amended): `completeness_score` divides the count of the nine
core monetary fields that are present by the fixed `total_fields = 12`
constant (never by 9); the full example validates with 6 of the 9 fields
present and scores 6/12 = 1/2. -/
theorem C1_score_divides_by_twelve :
    (∀ d : FinancialData,
        completeness_score d = (completedFields d : ℚ) / (totalFields : ℚ)) ∧
    validateRecord 2026 exampleInput = .valid exampleRecord ∧
    completedFields exampleRecord = 6 ∧
    completeness_score exampleRecord = 6 / 12 := by
  refine ⟨?_, by decide, by decide, ?_⟩
  · intro d
    unfold completeness_score
    rw [Rat.mkRat_eq_div]
    norm_num
  · rw [show completeness_score exampleRecord = mkRat 6 12 from by decide,
      Rat.mkRat_eq_div]
    norm_num

/-- C1 counterexample: the full example validates but its completeness
score is 1/2, not the specified 8/9 ≈ 0.889. -/
theorem C1_score_not_eight_ninths :
    validateRecord 2026 exampleInput = .valid exampleRecord ∧
    completeness_score exampleRecord ≠ 8 / 9 := by
  refine ⟨by decide, ?_⟩
  rw [show completeness_score exampleRecord = mkRat 1 2 from by decide,
    Rat.mkRat_eq_div]
  norm_num

/-! ### Claim C2: violation accumulation -/

/-- Claim C2 (amended): within each validation layer no check
short-circuits.  A logic violation is in the rejection exactly when its
own check produces it, independent of the other five; the rejection
example lists the gross-profit and operating-income identity violations
together (plus the ordering violation), and two independent field-level
violations are likewise reported together.  A field-level failure,
however, suppresses the logic layer (see the counterexample). -/
theorem C2_checks_accumulate :
    (∀ (d : FinancialData) (v : LogicViolation),
        v ∈ validate_financial_logic d ↔
          v ∈ checkGrossProfit d ∨ v ∈ checkOperatingIncome d ∨
          v ∈ checkEquity d ∨ v ∈ checkGpVsRevenue d ∨
          v ∈ checkOiVsGp d ∨ v ∈ checkNetVsOi d) ∧
    validateRecord 2026 rejectionInput =
      .logicRejected [.grossProfitMismatch 100000 400000,
        .operatingIncomeMismatch 200000 (-100000),
        .operatingIncomeExceedsGrossProfit 200000 100000] ∧
    validateRecord 2026 twoErrorInput =
      .fieldRejected [.yearOutOfRange "year", .negativeValue "revenue"] := by
  refine ⟨?_, by decide, by decide⟩
  intro d v
  simp [validate_financial_logic, List.mem_append, or_assoc]

/-- C2 counterexample: with an out-of-range year the record is rejected
with only the year violation, although the financial-logic checks — run on
the same monetary values — find violations; the logic layer was skipped,
so not every check runs on every input. -/
theorem C2_field_failure_suppresses_logic :
    validateRecord 2026 badYearInput = .fieldRejected [.yearOutOfRange "year"] ∧
    validate_financial_logic badYearRecord ≠ [] :=
  ⟨by decide, by decide⟩

/-! ### Claim C8: batch duplicate detection -/

theorem hasDupAux_iff (l : List FinancialData) :
    ∀ seen, hasDupAux seen l = true ↔
      ((∃ k ∈ l.map recordKey, k ∈ seen) ∨ ¬ (l.map recordKey).Nodup) := by
  induction l with
  | nil => intro seen; simp [hasDupAux]
  | cons r rest ih =>
    intro seen
    simp only [hasDupAux, Bool.or_eq_true, decide_eq_true_eq, List.map_cons]
    rw [ih (recordKey r :: seen)]
    constructor
    · rintro (hks | ⟨k, hk, hkin⟩ | hnd)
      · exact Or.inl ⟨recordKey r, List.mem_cons_self _ _, hks⟩
      · rcases List.mem_cons.mp hkin with rfl | hkseen
        · exact Or.inr (fun hnodup => (List.nodup_cons.mp hnodup).1 hk)
        · exact Or.inl ⟨k, List.mem_cons_of_mem _ hk, hkseen⟩
      · exact Or.inr (fun hnodup => hnd (List.nodup_cons.mp hnodup).2)
    · rintro (⟨k, hk, hks⟩ | hnd)
      · rcases List.mem_cons.mp hk with rfl | hkmem
        · exact Or.inl hks
        · exact Or.inr (Or.inl ⟨k, hkmem, List.mem_cons_of_mem _ hks⟩)
      · by_cases hkey : recordKey r ∈ rest.map recordKey
        · exact Or.inr (Or.inl ⟨recordKey r, hkey, List.mem_cons_self _ _⟩)
        · refine Or.inr (Or.inr ?_)
          intro hnd2
          exact hnd (List.nodup_cons.mpr ⟨hkey, hnd2⟩)

theorem not_nodup_iff_exists_pair {α : Type} (l : List α) :
    ¬ l.Nodup ↔ ∃ i j, ∃ (hi : i < l.length) (hj : j < l.length), i < j ∧
      l.get ⟨i, hi⟩ = l.get ⟨j, hj⟩ := by
  rw [List.nodup_iff_injective_get]
  constructor
  · intro h
    rw [Function.not_injective_iff] at h
    obtain ⟨i, j, heq, hne⟩ := h
    rcases lt_trichotomy i j with hlt | hfeq | hgt
    · exact ⟨i.val, j.val, i.isLt, j.isLt, hlt, heq⟩
    · exact absurd hfeq hne
    · exact ⟨j.val, i.val, j.isLt, i.isLt, hgt, heq.symm⟩
  · rintro ⟨i, j, hi, hj, hij, heq⟩
    rw [Function.not_injective_iff]
    refine ⟨⟨i, hi⟩, ⟨j, hj⟩, heq, ?_⟩
    intro hc
    rw [Fin.mk.injEq] at hc
    omega

/-- Claim C8: the batch duplicate validator fires exactly when two records
of the batch share the (lower-cased company name, year) key; concretely
two records differing only in company-name letter case with the same year
are rejected as duplicates. -/
theorem C8_batch_duplicate_iff :
    (∀ recs : List FinancialData,
        validate_unique_company_years recs = true ↔
          ∃ i j, ∃ (hi : i < recs.length) (hj : j < recs.length), i < j ∧
            recordKey (recs.get ⟨i, hi⟩) = recordKey (recs.get ⟨j, hj⟩)) ∧
    validate_unique_company_years [acmeMixedCase, acmeUpperCase] = true := by
  refine ⟨?_, by decide⟩
  intro recs
  unfold validate_unique_company_years
  rw [hasDupAux_iff recs []]
  simp only [List.not_mem_nil, and_false, exists_false, false_or]
  rw [not_nodup_iff_exists_pair]
  constructor
  · rintro ⟨i, j, hi, hj, hij, heq⟩
    have hi2 : i < recs.length := by simpa using hi
    have hj2 : j < recs.length := by simpa using hj
    refine ⟨i, j, hi2, hj2, hij, ?_⟩
    simpa [List.get_eq_getElem, List.getElem_map] using heq
  · rintro ⟨i, j, hi, hj, hij, heq⟩
    refine ⟨i, j, by simpa using hi, by simpa using hj, hij, ?_⟩
    simpa [List.get_eq_getElem, List.getElem_map] using heq

/-! ### Claim C9: margin-field invariants -/

theorem parseOptFloat_ok_bounds {lo hi : ℚ} {m : List (String × RawValue)}
    {name : String} {q : ℚ}
    (h : parseOptFloat lo hi m name = .ok (some q)) : lo ≤ q ∧ q ≤ hi := by
  unfold parseOptFloat at h
  split at h
  · simp at h
  · simp at h
  · split at h
    · simp at h
    · rename_i hcond
      push_neg at hcond
      simp only [Except.ok.injEq, Option.some.injEq] at h
      subst h
      exact hcond
  · split at h
    · simp at h
    · rename_i hcond
      push_neg at hcond
      simp only [Except.ok.injEq, Option.some.injEq] at h
      subst h
      exact hcond
  · simp at h

theorem parseOptFloat_getD_bounds {lo hi : ℚ} {m : List (String × RawValue)}
    {name : String} {q : ℚ}
    (hq : (parseOptFloat lo hi m name).toOption.getD none = some q) :
    lo ≤ q ∧ q ≤ hi := by
  cases hp : parseOptFloat lo hi m name with
  | error e => rw [hp] at hq; simp [Except.toOption] at hq
  | ok v =>
    rw [hp] at hq
    simp only [Except.toOption, Option.getD_some] at hq
    subst hq
    exact parseOptFloat_ok_bounds hp

theorem validateRecord_valid {cy : Int} {m : List (String × RawValue)}
    {d : FinancialData} (h : validateRecord cy m = .valid d) :
    fieldErrors cy m = [] ∧ d = buildRecord cy m := by
  unfold validateRecord at h
  by_cases hf : fieldErrors cy m = []
  · rw [if_pos hf] at h
    refine ⟨hf, ?_⟩
    cases hlog : validate_financial_logic (buildRecord cy m) with
    | nil =>
      rw [hlog] at h
      simpa using h.symm
    | cons v vs =>
      rw [hlog] at h
      simp at h
  · rw [if_neg hf] at h
    simp at h

/-- Claim C9: every record that passes validation has any present
gross_margin in [0, 100] and any present operating_margin / net_margin in
[-100, 100]; an input with a negative gross_margin is rejected, while a
negative gross_profit validates. -/
theorem C9_margin_bounds :
    (∀ (cy : Int) (m : List (String × RawValue)) (d : FinancialData),
        validateRecord cy m = .valid d →
        (∀ q : ℚ, d.gross_margin = some q → 0 ≤ q ∧ q ≤ 100) ∧
        (∀ q : ℚ, d.operating_margin = some q → -100 ≤ q ∧ q ≤ 100) ∧
        (∀ q : ℚ, d.net_margin = some q → -100 ≤ q ∧ q ≤ 100)) ∧
    validateRecord 2026 negMarginInput = .fieldRejected [.outOfRange "gross_margin"] ∧
    validateRecord 2026 negGpInput = .valid negGpRecord ∧
    negGpRecord.gross_profit = some (-100) := by
  refine ⟨?_, by decide, by decide, by decide⟩
  intro cy m d h
  obtain ⟨_, hd⟩ := validateRecord_valid h
  subst hd
  refine ⟨?_, ?_, ?_⟩ <;> intro q hq
  · exact parseOptFloat_getD_bounds hq
  · exact parseOptFloat_getD_bounds hq
  · exact parseOptFloat_getD_bounds hq

/-! ### Claim C10: unknown keys are forbidden, cleaning keeps keys -/

/-- Claim C10: an input map with any key outside the declared field set is
rejected (`extra="forbid"`), with an unknown-field error for that key in
the rejection, although `clean_financial_data` passes every key through
unchanged. -/
theorem C10_unknown_keys_rejected :
    (∀ (cy : Int) (m : List (String × RawValue)) (k : String),
        k ∈ m.map Prod.fst → k ∉ baseFieldNames →
        validateRecord cy m = .fieldRejected (fieldErrors cy m) ∧
          FieldError.extraForbidden k ∈ fieldErrors cy m) ∧
    (∀ m : List (String × RawValue),
        (clean_financial_data m).map Prod.fst = m.map Prod.fst) ∧
    validateRecord 2026 unknownKeyInput = .fieldRejected [.extraForbidden "ebitda"] := by
  refine ⟨?_, ?_, by decide⟩
  · intro cy m k hk hkn
    have hmem : FieldError.extraForbidden k ∈ extraKeyErrors m := by
      unfold extraKeyErrors
      exact List.mem_map_of_mem _ (List.mem_filter.mpr ⟨hk, by simpa using hkn⟩)
    have hmem2 : FieldError.extraForbidden k ∈ fieldErrors cy m := by
      unfold fieldErrors
      simp only [List.mem_append]
      tauto
    refine ⟨?_, hmem2⟩
    unfold validateRecord
    rw [if_neg (fun hc => by rw [hc] at hmem2; simp at hmem2)]
  · intro m
    induction m with
    | nil => rfl
    | cons kv rest ih => simp [clean_financial_data]
